import Mathlib

/-!
Shallow embedding of the TxnGuard duplicate-payment detector (src/app.py).

The core is `extract_account_id`, a per-rail heuristic that extracts a
canonical sender identifier from a bank-statement narration string, and the
grouping stage that flags identifiers occurring in more than one identified
transaction.  Python regular-expression searches are embedded as explicit
left-to-right scans over `List Char`; `re` word characters, digits and
letter classes are modelled by the corresponding ASCII predicates.
-/

namespace TxnGuard

/-- Characters matched by the regex word class (ASCII model of Python re). -/
def isWordChar (c : Char) : Bool := c.isAlpha || c.isDigit || c = '_'

/-- Characters allowed in a UPI handle username per the regex class of word
characters, dot and hyphen. -/
def isHandleChar (c : Char) : Bool := isWordChar c || c = '.' || c = '-'

/-- Uppercase ASCII letter, the regex class A to Z. -/
def isUpperAZ (c : Char) : Bool := decide ('A' ≤ c) && decide (c ≤ 'Z')

/-- Uppercase ASCII letter or digit, the regex class 0-9A-Z. -/
def isUpperAlnum (c : Char) : Bool := isUpperAZ c || c.isDigit

/-- Python str.strip on a list of characters. -/
def pyStrip (l : List Char) : List Char :=
  ((l.dropWhile Char.isWhitespace).reverse.dropWhile Char.isWhitespace).reverse

/-- Case-insensitive comparison of an uppercase keyword with the start of a
character list (IGNORECASE matching, ASCII model). -/
def startsWithCI (w l : List Char) : Bool := decide ((l.take w.length).map Char.toUpper = w)

/-- Word boundary after a match: end of input or a non-word character. -/
def wordBoundaryAfter (rest : List Char) : Bool :=
  match rest with
  | [] => true
  | c :: _ => !isWordChar c

/-- Whole-word keyword match at the head of the list. -/
def wordAt (w l : List Char) : Bool := startsWithCI w l && wordBoundaryAfter (l.drop w.length)

/-- Scan for a whole-word keyword; the Bool argument records whether the
previous character was a word boundary (start of string or non-word). -/
def hasWordFrom (w : List Char) : Bool → List Char → Bool
  | _, [] => false
  | canStart, c :: rest => (canStart && wordAt w (c :: rest)) || hasWordFrom w (!isWordChar c) rest

/-- Case-insensitive whole-word search, modelling re.search of a
word-boundary-delimited keyword with the IGNORECASE flag. -/
def hasWord (w l : List Char) : Bool := hasWordFrom w true l

def kwUPI : List Char := ['U', 'P', 'I']
def kwNEFT : List Char := ['N', 'E', 'F', 'T']
def kwRTGS : List Char := ['R', 'T', 'G', 'S']
def kwINFT : List Char := ['I', 'N', 'F', 'T']
def kwIMPS : List Char := ['I', 'M', 'P', 'S']
def kwMMT : List Char := ['M', 'M', 'T']

/-- Non-overlapping left-to-right matches of the handle regex: a run of at
least three handle characters, an at sign, then a possibly empty run of word
characters.  The fuel argument (instantiated with the list length) makes the
scan structural; each step consumes at least one character. -/
def scanHandles : Nat → List Char → List (List Char × List Char)
  | 0, _ => []
  | _ + 1, [] => []
  | fuel + 1, c :: rest =>
    if decide (3 ≤ ((c :: rest).takeWhile isHandleChar).length) then
      match (c :: rest).drop ((c :: rest).takeWhile isHandleChar).length with
      | '@' :: afterAt =>
        ((c :: rest).takeWhile isHandleChar, afterAt.takeWhile isWordChar) ::
          scanHandles fuel (afterAt.drop (afterAt.takeWhile isWordChar).length)
      | _ => scanHandles fuel rest
    else scanHandles fuel rest

/-- The bank-code shape rejected in the UPI branch: a full match of two to
six uppercase letters (the regex is case sensitive). -/
def bankShape (pre : List Char) : Bool :=
  decide (2 ≤ pre.length) && decide (pre.length ≤ 6) && pre.all isUpperAZ

/-- The for-loop over handle matches: skip usernames longer than 30
characters and usernames of bank-code shape, return the first survivor
lowercased. -/
def upiPick : List (List Char × List Char) → Option (List Char)
  | [] => none
  | (pre, _) :: ms =>
    if decide (30 < pre.length) then upiPick ms
    else if bankShape pre then upiPick ms
    else some (pre.map Char.toLower)

def upiTag : List Char := ['u', 'p', 'i', ':']
def acctTag : List Char := ['a', 'c', 'c', 't', ':']
def impsTag : List Char := ['i', 'm', 'p', 's', '_', 'n', 'a', 'm', 'e', ':']

/-- UPI-branch key: the first acceptable handle username, lowercased. -/
def upiKey (desc : List Char) : Option (List Char) :=
  (upiPick (scanHandles desc.length desc)).map (fun u => upiTag ++ u)

/-- IFSC-shaped code at the head of the list: four uppercase letters then
seven uppercase alphanumerics. -/
def checkIFSC (l : List Char) : Bool :=
  decide ((l.take 4).length = 4) && (l.take 4).all isUpperAZ &&
    decide (((l.drop 4).take 7).length = 7) && ((l.drop 4).take 7).all isUpperAlnum

/-- Leftmost match of the primary NEFT/RTGS regex: a run of 9 to 18 digits
immediately followed by a dash and an IFSC-shaped code. -/
def scanAcctPrimary : List Char → Option (List Char)
  | [] => none
  | c :: rest =>
    if decide (9 ≤ ((c :: rest).takeWhile Char.isDigit).length) &&
        decide (((c :: rest).takeWhile Char.isDigit).length ≤ 18) then
      match (c :: rest).drop ((c :: rest).takeWhile Char.isDigit).length with
      | '-' :: rest2 =>
        if checkIFSC rest2 then some ((c :: rest).takeWhile Char.isDigit)
        else scanAcctPrimary rest
      | _ => scanAcctPrimary rest
    else scanAcctPrimary rest

/-- Leftmost match of the fallback regex: a standalone (word-boundary
delimited) run of 11 to 18 digits.  The Bool argument records whether a
match may start at the current position. -/
def scanAcctFallbackFrom : Bool → List Char → Option (List Char)
  | _, [] => none
  | canStart, c :: rest =>
    if canStart && decide (11 ≤ ((c :: rest).takeWhile Char.isDigit).length) &&
        decide (((c :: rest).takeWhile Char.isDigit).length ≤ 18) &&
        wordBoundaryAfter ((c :: rest).drop ((c :: rest).takeWhile Char.isDigit).length) then
      some ((c :: rest).takeWhile Char.isDigit)
    else scanAcctFallbackFrom (!isWordChar c) rest

/-- Presence of any keyword of the NEFT, RTGS, INFT alternation. -/
def railGroupNEFT (desc : List Char) : Bool :=
  hasWord kwNEFT desc || hasWord kwRTGS desc || hasWord kwINFT desc

/-- Transaction-type label of the NEFT/RTGS branch: RTGS when the RTGS
keyword is present, otherwise NEFT. -/
def neftLabel (desc : List Char) : String := if hasWord kwRTGS desc then "RTGS" else "NEFT"

/-- NEFT/RTGS-branch digits: the primary IFSC-adjacent match, then the
standalone fallback. -/
def neftScan (desc : List Char) : Option (List Char) :=
  match scanAcctPrimary desc with
  | some d => some d
  | none => scanAcctFallbackFrom true desc

/-- Python split on the slash character, keeping empty segments. -/
def splitSlash : List Char → List (List Char)
  | [] => [[]]
  | c :: rest =>
    if c = '/' then [] :: splitSlash rest
    else
      match splitSlash rest with
      | [] => [[c]]
      | p :: ps => (c :: p) :: ps

/-- Python negative index -2: the second-to-last element, when the list has
at least two elements. -/
def secondToLast {α : Type} : List α → Option α
  | [] => none
  | [_] => none
  | [a, _] => some a
  | _ :: b :: c :: rest => secondToLast (b :: c :: rest)

def upperL (l : List Char) : List Char := l.map Char.toUpper
def lowerL (l : List Char) : List Char := l.map Char.toLower

/-- Python str.isdigit: nonempty and all digits. -/
def isDigitStr (l : List Char) : Bool := !l.isEmpty && l.all Char.isDigit

/-- The skip-keyword regex of the IMPS branch: a full, case-insensitive
match of MMT, IMPS, NEFT, RTGS, UPI, or a run of digits. -/
def skipKw (c : List Char) : Bool :=
  decide (upperL c = kwMMT) || decide (upperL c = kwIMPS) ||
  decide (upperL c = kwNEFT) || decide (upperL c = kwRTGS) ||
  decide (upperL c = kwUPI) || isDigitStr c

/-- The known-bank alternation of the IMPS branch, in source order. -/
def bankAlts : List String :=
  ["federal", "hdfc", "sbi", "icici", "axis", "kotak", "south indian", "canara",
   "pnb", "bob", "idfc", "yes", "union", "indian", "karnataka", "karur",
   "city union", "tamilnad", "dcb", "rbl", "indusind", "bandhan", "au small",
   "ujjivan", "equitas", "jana", "central", "uco", "syndicate", "corporation",
   "allahabad", "dena", "vijaya", "oriental", "state bank", "bank of",
   "standard chartered", "citi", "deutsche", "hsbc", "baroda", "punjab",
   "federal bank", "south indian ba"]

/-- Case-insensitive anchored match of the known-bank alternation. -/
def isBankName (c : List Char) : Bool :=
  bankAlts.any (fun b => b.data.isPrefixOf (lowerL c))

/-- The acceptance test of the IMPS candidate segment: nonempty, not a
skip keyword, not a known bank name, not all digits, length over two. -/
def impsCandidateOk (c : List Char) : Bool :=
  !c.isEmpty && !skipKw c && !isBankName c && !isDigitStr c && decide (2 < c.length)

/-- IMPS-branch key: the stripped second-to-last slash-separated segment,
uppercased, when it passes the acceptance test. -/
def impsKey (desc : List Char) : Option (List Char) :=
  match secondToLast ((splitSlash desc).map pyStrip) with
  | some cand =>
    if impsCandidateOk (pyStrip cand) then some (impsTag ++ upperL (pyStrip cand)) else none
  | none => none

/-- The extractor of src/app.py on a character list: blank input degrades to
no key under UNKNOWN; otherwise the UPI, NEFT/RTGS/INFT and IMPS/MMT
branches are tried in source order, and a description matching none of the
rail keywords yields no key under OTHER. -/
def extractL (description : List Char) : Option (List Char) × String :=
  if (pyStrip description).isEmpty then (none, "UNKNOWN")
  else if hasWord kwUPI (pyStrip description) then (upiKey (pyStrip description), "UPI")
  else if railGroupNEFT (pyStrip description) then
    ((neftScan (pyStrip description)).map (fun d => acctTag ++ d), neftLabel (pyStrip description))
  else if hasWord kwIMPS (pyStrip description) || hasWord kwMMT (pyStrip description) then
    (impsKey (pyStrip description), "IMPS")
  else (none, "OTHER")

/-- extract_account_id of src/app.py.  A missing or non-string description
is modelled by `none` and yields no key under UNKNOWN, as in the
isinstance guard of the source. -/
def extract_account_id (description : Option String) : Option String × String :=
  match description with
  | none => (none, "UNKNOWN")
  | some s => ((extractL s.data).1.map (fun l => String.mk l), (extractL s.data).2)

/-- The extractor applied to a present string description. -/
def extractS (s : String) : Option String × String := extract_account_id (some s)

/-- Occurrence count of a key in the identified-key list, as the
value_counts of the source. -/
def keyCount (keys : List String) (k : String) : Nat := keys.countP (fun x => decide (x = k))

/-- A key is a duplicate iff its occurrence count exceeds one, as the
value_counts-greater-than-one filter of the source. -/
def is_dup (keys : List String) (k : String) : Bool := decide (1 < keyCount keys k)

/-- The dup_accounts index of the source: keys whose occurrence count
exceeds one. -/
def dup_accounts (keys : List String) : List String := keys.dedup.filter (fun k => is_dup keys k)

/-- Keys of the identified transactions: extraction results with a key
present, as the notna filter of the source. -/
def identifiedKeys (rows : List (Option String)) : List String :=
  rows.filterMap (fun d => (extract_account_id d).1)

/-- Flagging as the claim words it: a key is flagged iff the set of
distinct other-party labels associated with that key has cardinality
greater than one.  Records pair a raw key with an other-party label. -/
def claimFlag (recs : List (String × String)) (k : String) : Bool :=
  decide (1 < (((recs.filter (fun r => decide (r.1 = k))).map Prod.snd).dedup).length)

/-- Rail resolution as the claim words it: whole-word keywords resolved by
the fixed priority UPI, RTGS, NEFT, IMPS, INFT, UNKNOWN. -/
def railPriorityClaim (s : String) : String :=
  if hasWord kwUPI (pyStrip s.data) then "UPI"
  else if hasWord kwRTGS (pyStrip s.data) then "RTGS"
  else if hasWord kwNEFT (pyStrip s.data) then "NEFT"
  else if hasWord kwIMPS (pyStrip s.data) || hasWord kwMMT (pyStrip s.data) then "IMPS"
  else if hasWord kwINFT (pyStrip s.data) then "INFT"
  else "UNKNOWN"

/-- Leftmost match of the primary NEFT/RTGS pattern as the claim words it:
a run of 9 to 18 digits immediately followed by a dash or a space and an
IFSC-shaped code. -/
def scanAcctDashSpace : List Char → Option (List Char)
  | [] => none
  | c :: rest =>
    if decide (9 ≤ ((c :: rest).takeWhile Char.isDigit).length) &&
        decide (((c :: rest).takeWhile Char.isDigit).length ≤ 18) then
      match (c :: rest).drop ((c :: rest).takeWhile Char.isDigit).length with
      | d :: rest2 =>
        if (decide (d = '-') || decide (d = ' ')) && checkIFSC rest2 then
          some ((c :: rest).takeWhile Char.isDigit)
        else scanAcctDashSpace rest
      | [] => scanAcctDashSpace rest
    else scanAcctDashSpace rest

/-- NEFT/RTGS key as the claim words it: the dash-or-space IFSC-adjacent
digit run, with the standalone 11-to-18-digit fallback. -/
def neftKeyClaim (s : String) : Option String :=
  match scanAcctDashSpace (pyStrip s.data) with
  | some r => some (String.mk (acctTag ++ r))
  | none =>
    match scanAcctFallbackFrom true (pyStrip s.data) with
    | some r => some (String.mk (acctTag ++ r))
    | none => none

/-- Acceptance test of the claim for an IMPS segment: length over two, not
a bank name, not a rail keyword, not numeric. -/
def goodSegment (c : List Char) : Bool :=
  decide (2 < c.length) && !isBankName c && !skipKw c && !isDigitStr c

/-- IMPS name as the claim words it: split on the delimiter into ordered
trimmed segments and take the second-to-last one, read off the reversed
segment list, when it passes the acceptance test. -/
def impsNameClaim (s : String) : Option String :=
  match ((splitSlash (pyStrip s.data)).map pyStrip).reverse with
  | _ :: cand :: _ =>
    if goodSegment (pyStrip cand) then some (String.mk (impsTag ++ upperL (pyStrip cand)))
    else none
  | _ => none

/-- Modelled from the spec: character-level step of the Normalizer of
section 4.1, which is not present in src/app.py.  Hyphen, underscore and
pipe collapse to the canonical delimiter; other characters upper-case. -/
def normChar (c : Char) : Char :=
  if c = '-' ∨ c = '_' ∨ c = '|' then '/' else c.toUpper

/-- Modelled from the spec: collapse runs of repeated canonical delimiters
to a single one. -/
def collapseSlash : List Char → List Char
  | [] => []
  | [c] => [c]
  | a :: b :: rest =>
    if a = '/' ∧ b = '/' then collapseSlash (b :: rest) else a :: collapseSlash (b :: rest)

/-- Modelled from the spec: the Normalizer of section 4.1, absent from
src/app.py.  Upper-cases and collapses hyphen, underscore and pipe to the
single canonical delimiter, with repeated delimiters collapsed to one. -/
def normalize (s : String) : String := String.mk (collapseSlash (s.data.map normChar))

/-- No two adjacent canonical delimiters. -/
def noDoubleSlash : List Char → Prop
  | [] => True
  | [_] => True
  | a :: b :: rest => ¬(a = '/' ∧ b = '/') ∧ noDoubleSlash (b :: rest)

/-!
Helper lemmas: character facts by enumeration of the letter ranges, the
collapse of repeated delimiters, invariants of the regex scans, and the
branch structure of the extractor.
-/

lemma upperRange_enum (c : Char) (h1 : 65 ≤ c.toNat) (h2 : c.toNat ≤ 90) :
    c = 'A' ∨ c = 'B' ∨ c = 'C' ∨ c = 'D' ∨ c = 'E' ∨ c = 'F' ∨ c = 'G' ∨ c = 'H' ∨
    c = 'I' ∨ c = 'J' ∨ c = 'K' ∨ c = 'L' ∨ c = 'M' ∨ c = 'N' ∨ c = 'O' ∨ c = 'P' ∨
    c = 'Q' ∨ c = 'R' ∨ c = 'S' ∨ c = 'T' ∨ c = 'U' ∨ c = 'V' ∨ c = 'W' ∨ c = 'X' ∨
    c = 'Y' ∨ c = 'Z' := by
  have h3 : Char.ofNat c.toNat = c := Char.ofNat_toNat c
  obtain ⟨n, hn⟩ : ∃ n, c.toNat = n := ⟨_, rfl⟩
  rw [hn] at h1 h2 h3
  interval_cases n <;> rw [← h3] <;> decide

lemma lowerRange_enum (c : Char) (h1 : 97 ≤ c.toNat) (h2 : c.toNat ≤ 122) :
    c = 'a' ∨ c = 'b' ∨ c = 'c' ∨ c = 'd' ∨ c = 'e' ∨ c = 'f' ∨ c = 'g' ∨ c = 'h' ∨
    c = 'i' ∨ c = 'j' ∨ c = 'k' ∨ c = 'l' ∨ c = 'm' ∨ c = 'n' ∨ c = 'o' ∨ c = 'p' ∨
    c = 'q' ∨ c = 'r' ∨ c = 's' ∨ c = 't' ∨ c = 'u' ∨ c = 'v' ∨ c = 'w' ∨ c = 'x' ∨
    c = 'y' ∨ c = 'z' := by
  have h3 : Char.ofNat c.toNat = c := Char.ofNat_toNat c
  obtain ⟨n, hn⟩ : ∃ n, c.toNat = n := ⟨_, rfl⟩
  rw [hn] at h1 h2 h3
  interval_cases n <;> rw [← h3] <;> decide

lemma toLower_eq_self (c : Char) (h : ¬(65 ≤ c.toNat ∧ c.toNat ≤ 90)) : c.toLower = c := by
  show (if 65 ≤ c.toNat ∧ c.toNat ≤ 90 then Char.ofNat (c.toNat + 32) else c) = c
  rw [if_neg h]

lemma toUpper_eq_self (c : Char) (h : ¬(97 ≤ c.toNat ∧ c.toNat ≤ 122)) : c.toUpper = c := by
  show (if 97 ≤ c.toNat ∧ c.toNat ≤ 122 then Char.ofNat (c.toNat - 32) else c) = c
  rw [if_neg h]

lemma toLower_toLower (c : Char) : c.toLower.toLower = c.toLower := by
  by_cases h : 65 ≤ c.toNat ∧ c.toNat ≤ 90
  · rcases upperRange_enum c h.1 h.2 with
      rfl|rfl|rfl|rfl|rfl|rfl|rfl|rfl|rfl|rfl|rfl|rfl|rfl|rfl|rfl|rfl|rfl|rfl|rfl|rfl|rfl|rfl|rfl|rfl|rfl|rfl <;> decide
  · rw [toLower_eq_self c h, toLower_eq_self c h]

lemma toUpper_toUpper (c : Char) : c.toUpper.toUpper = c.toUpper := by
  by_cases h : 97 ≤ c.toNat ∧ c.toNat ≤ 122
  · rcases lowerRange_enum c h.1 h.2 with
      rfl|rfl|rfl|rfl|rfl|rfl|rfl|rfl|rfl|rfl|rfl|rfl|rfl|rfl|rfl|rfl|rfl|rfl|rfl|rfl|rfl|rfl|rfl|rfl|rfl|rfl <;> decide
  · rw [toUpper_eq_self c h, toUpper_eq_self c h]

lemma isHandleChar_toLower (c : Char) (h : isHandleChar c = true) :
    isHandleChar c.toLower = true := by
  by_cases hu : 65 ≤ c.toNat ∧ c.toNat ≤ 90
  · rcases upperRange_enum c hu.1 hu.2 with
      rfl|rfl|rfl|rfl|rfl|rfl|rfl|rfl|rfl|rfl|rfl|rfl|rfl|rfl|rfl|rfl|rfl|rfl|rfl|rfl|rfl|rfl|rfl|rfl|rfl|rfl <;> decide
  · rw [toLower_eq_self c hu]; exact h

lemma normChar_normChar (c : Char) : normChar (normChar c) = normChar c := by
  by_cases hd : c = '-' ∨ c = '_' ∨ c = '|'
  · rw [show normChar c = '/' from if_pos hd]; decide
  · rw [show normChar c = c.toUpper from if_neg hd]
    by_cases hl : 97 ≤ c.toNat ∧ c.toNat ≤ 122
    · rcases lowerRange_enum c hl.1 hl.2 with
        rfl|rfl|rfl|rfl|rfl|rfl|rfl|rfl|rfl|rfl|rfl|rfl|rfl|rfl|rfl|rfl|rfl|rfl|rfl|rfl|rfl|rfl|rfl|rfl|rfl|rfl <;> decide
    · rw [toUpper_eq_self c hl]
      rw [show normChar c = c.toUpper from if_neg hd, toUpper_eq_self c hl]

lemma collapseSlash_cons (a : Char) (l : List Char) :
    ∃ t, collapseSlash (a :: l) = a :: t := by
  induction l generalizing a with
  | nil => exact ⟨[], rfl⟩
  | cons b rest ih =>
    by_cases h : a = '/' ∧ b = '/'
    · obtain ⟨ha, hb⟩ := h
      subst ha; subst hb
      obtain ⟨t, ht⟩ := ih '/'
      exact ⟨t, by rw [show collapseSlash ('/' :: '/' :: rest) = collapseSlash ('/' :: rest) from
        if_pos ⟨rfl, rfl⟩, ht]⟩
    · exact ⟨collapseSlash (b :: rest), if_neg h⟩

lemma noDoubleSlash_collapseSlash (l : List Char) : noDoubleSlash (collapseSlash l) := by
  induction l with
  | nil => trivial
  | cons a rest ih =>
    cases rest with
    | nil => trivial
    | cons b rest2 =>
      by_cases h : a = '/' ∧ b = '/'
      · rw [show collapseSlash (a :: b :: rest2) = collapseSlash (b :: rest2) from if_pos h]
        exact ih
      · rw [show collapseSlash (a :: b :: rest2) = a :: collapseSlash (b :: rest2) from if_neg h]
        obtain ⟨t, ht⟩ := collapseSlash_cons b rest2
        rw [ht]
        exact ⟨by rw [← ht] at *; exact h, by rw [← ht]; exact ih⟩

lemma collapseSlash_of_noDouble (l : List Char) (h : noDoubleSlash l) : collapseSlash l = l := by
  induction l with
  | nil => rfl
  | cons a rest ih =>
    cases rest with
    | nil => rfl
    | cons b rest2 =>
      obtain ⟨h1, h2⟩ := h
      rw [show collapseSlash (a :: b :: rest2) = a :: collapseSlash (b :: rest2) from if_neg h1,
        ih h2]

lemma mem_collapseSlash {x : Char} : ∀ {l : List Char}, x ∈ collapseSlash l → x ∈ l := by
  intro l
  induction l with
  | nil => intro h; exact absurd h (by simp [collapseSlash])
  | cons a rest ih =>
    cases rest with
    | nil => intro h; exact h
    | cons b rest2 =>
      by_cases hab : a = '/' ∧ b = '/'
      · rw [show collapseSlash (a :: b :: rest2) = collapseSlash (b :: rest2) from if_pos hab]
        intro h
        exact List.mem_cons_of_mem a (ih h)
      · rw [show collapseSlash (a :: b :: rest2) = a :: collapseSlash (b :: rest2) from if_neg hab]
        intro h
        rcases List.mem_cons.mp h with rfl | h2
        · exact List.mem_cons_self _ _
        · exact List.mem_cons_of_mem a (ih h2)

lemma map_normChar_collapse (l : List Char) :
    (collapseSlash (l.map normChar)).map normChar = collapseSlash (l.map normChar) := by
  have h : ∀ x ∈ collapseSlash (l.map normChar), normChar x = x := by
    intro x hx
    obtain ⟨y, _, rfl⟩ := List.mem_map.mp (mem_collapseSlash hx)
    exact normChar_normChar y
  calc (collapseSlash (l.map normChar)).map normChar
      = (collapseSlash (l.map normChar)).map id := List.map_congr_left h
    _ = _ := List.map_id _

lemma hasWord_isEmpty (w l : List Char) (h : hasWord w l = true) : l.isEmpty = false := by
  cases l with
  | nil => exact absurd h (by simp [hasWord, hasWordFrom])
  | cons c rest => rfl

lemma scanHandles_mem (fuel : Nat) :
    ∀ (l pre suf : List Char), (pre, suf) ∈ scanHandles fuel l →
      3 ≤ pre.length ∧ pre.all isHandleChar = true := by
  induction fuel with
  | zero => intro l pre suf h; exact absurd h (by simp [scanHandles])
  | succ k ih =>
    intro l pre suf h
    cases l with
    | nil => exact absurd h (by simp [scanHandles])
    | cons c rest =>
      simp only [scanHandles] at h
      split at h
      · rename_i hlen
        split at h
        · rcases List.mem_cons.mp h with heq | hmem
          · injection heq with h1 h2
            subst h1
            exact ⟨of_decide_eq_true hlen, List.all_takeWhile⟩
          · exact ih _ _ _ hmem
        · exact ih _ _ _ h
      · exact ih _ _ _ h

lemma upiPick_some : ∀ (ms : List (List Char × List Char)) (u : List Char),
    upiPick ms = some u →
    ∃ pre suf, (pre, suf) ∈ ms ∧ pre.length ≤ 30 ∧ u = pre.map Char.toLower := by
  intro ms
  induction ms with
  | nil => intro u h; exact absurd h (by simp [upiPick])
  | cons m ms ih =>
    obtain ⟨pre, suf⟩ := m
    intro u h
    simp only [upiPick] at h
    split at h
    · obtain ⟨p, s, hm, h30, hu⟩ := ih u h
      exact ⟨p, s, List.mem_cons_of_mem _ hm, h30, hu⟩
    · rename_i h30
      split at h
      · obtain ⟨p, s, hm, h30b, hu⟩ := ih u h
        exact ⟨p, s, List.mem_cons_of_mem _ hm, h30b, hu⟩
      · refine ⟨pre, suf, List.mem_cons_self _ _, ?_, (Option.some.inj h).symm⟩
        have := of_decide_eq_false (Bool.not_eq_true _ ▸ h30)
        omega

lemma scanAcctPrimary_some : ∀ (l d : List Char), scanAcctPrimary l = some d →
    9 ≤ d.length ∧ d.length ≤ 18 ∧ d.all Char.isDigit = true := by
  intro l
  induction l with
  | nil => intro d h; exact absurd h (by simp [scanAcctPrimary])
  | cons c rest ih =>
    intro d h
    simp only [scanAcctPrimary] at h
    split at h
    · rename_i hlen
      split at h
      · split at h
        · have hd := Option.some.inj h
          subst hd
          simp only [Bool.and_eq_true, decide_eq_true_eq] at hlen
          exact ⟨hlen.1, hlen.2, List.all_takeWhile⟩
        · exact ih d h
      · exact ih d h
    · exact ih d h

lemma scanAcctFallbackFrom_some : ∀ (l : List Char) (b : Bool) (d : List Char),
    scanAcctFallbackFrom b l = some d →
    11 ≤ d.length ∧ d.length ≤ 18 ∧ d.all Char.isDigit = true := by
  intro l
  induction l with
  | nil => intro b d h; exact absurd h (by simp [scanAcctFallbackFrom])
  | cons c rest ih =>
    intro b d h
    simp only [scanAcctFallbackFrom] at h
    split at h
    · rename_i hcond
      have hd := Option.some.inj h
      subst hd
      simp only [Bool.and_eq_true, decide_eq_true_eq] at hcond
      exact ⟨hcond.1.1.2, hcond.1.2, List.all_takeWhile⟩
    · exact ih _ d h

lemma extractL_blank (d : List Char) (h : (pyStrip d).isEmpty = true) :
    extractL d = (none, "UNKNOWN") := by
  simp [extractL, h]

lemma extractL_upi (d : List Char) (h : hasWord kwUPI (pyStrip d) = true) :
    extractL d = (upiKey (pyStrip d), "UPI") := by
  have hne := hasWord_isEmpty _ _ h
  simp [extractL, hne, h]

lemma railGroupNEFT_isEmpty (d : List Char) (h : railGroupNEFT d = true) :
    d.isEmpty = false := by
  simp only [railGroupNEFT, Bool.or_eq_true] at h
  rcases h with (h | h) | h <;> exact hasWord_isEmpty _ _ h

lemma extractL_neft (d : List Char) (h0 : hasWord kwUPI (pyStrip d) = false)
    (h1 : railGroupNEFT (pyStrip d) = true) :
    extractL d = ((neftScan (pyStrip d)).map (fun x => acctTag ++ x), neftLabel (pyStrip d)) := by
  have hne := railGroupNEFT_isEmpty _ h1
  simp [extractL, hne, h0, h1]

lemma extractL_imps (d : List Char) (h0 : hasWord kwUPI (pyStrip d) = false)
    (h1 : railGroupNEFT (pyStrip d) = false)
    (h2 : (hasWord kwIMPS (pyStrip d) || hasWord kwMMT (pyStrip d)) = true) :
    extractL d = (impsKey (pyStrip d), "IMPS") := by
  have hne : (pyStrip d).isEmpty = false := by
    rcases Bool.or_eq_true _ _ ▸ h2 with h | h <;> exact hasWord_isEmpty _ _ h
  simp [extractL, hne, h0, h1, h2]

lemma extractL_other (d : List Char) (hne : (pyStrip d).isEmpty = false)
    (h0 : hasWord kwUPI (pyStrip d) = false)
    (h1 : railGroupNEFT (pyStrip d) = false)
    (h2 : (hasWord kwIMPS (pyStrip d) || hasWord kwMMT (pyStrip d)) = false) :
    extractL d = (none, "OTHER") := by
  simp [extractL, hne, h0, h1, h2]

end TxnGuard

namespace TxnGuard

lemma keyCount_identified (rows : List (Option String)) (k : String) :
    keyCount (identifiedKeys rows) k =
      rows.countP (fun d => decide ((extract_account_id d).1 = some k)) := by
  induction rows with
  | nil => rfl
  | cons d rows ih =>
    rw [List.countP_cons]
    cases h : (extract_account_id d).1 with
    | none =>
      have hid : identifiedKeys (d :: rows) = identifiedKeys rows := by
        simp [identifiedKeys, List.filterMap_cons, h]
      rw [hid, ih]
      simp
    | some key =>
      have hid : identifiedKeys (d :: rows) = key :: identifiedKeys rows := by
        simp [identifiedKeys, List.filterMap_cons, h]
      rw [hid, keyCount, List.countP_cons, ← keyCount, ih]
      simp

lemma tag_ne_upi_acct (u v : List Char) : upiTag ++ u ≠ acctTag ++ v := by
  intro h
  simp [upiTag, acctTag] at h

lemma tag_ne_upi_imps (u v : List Char) : upiTag ++ u ≠ impsTag ++ v := by
  intro h
  simp [upiTag, impsTag] at h

lemma tag_ne_acct_imps (u v : List Char) : acctTag ++ u ≠ impsTag ++ v := by
  intro h
  simp [acctTag, impsTag] at h

lemma secondToLast_reverse {α : Type} : ∀ l : List α,
    secondToLast l = l.reverse.tail.head? := by
  intro l
  induction l with
  | nil => rfl
  | cons a t ih =>
    cases t with
    | nil => rfl
    | cons b u =>
      cases u with
      | nil => rfl
      | cons c v =>
        rw [show secondToLast (a :: b :: c :: v) = secondToLast (b :: c :: v) from rfl, ih]
        rw [show (a :: b :: c :: v).reverse = (b :: c :: v).reverse ++ [a] by simp]
        have hne : (b :: c :: v).reverse ≠ [] := by simp
        rw [List.tail_append_of_ne_nil hne]
        cases h2 : (b :: c :: v).reverse.tail with
        | nil =>
          have hlen := congrArg List.length h2
          simp [List.length_tail] at hlen
        | cons w ws => rfl

lemma impsCandidateOk_eq_goodSegment (c : List Char) :
    impsCandidateOk c = goodSegment c := by
  unfold impsCandidateOk goodSegment
  by_cases h : 2 < c.length
  · have hne : c.isEmpty = false := by
      cases c with
      | nil => simp at h
      | cons x xs => rfl
    cases hk : skipKw c <;> cases hb : isBankName c <;> cases hd : isDigitStr c <;>
      simp [hne, h, hk, hb, hd]
  · have h2 : decide (2 < c.length) = false := decide_eq_false h
    rw [h2]
    simp

end TxnGuard

namespace TxnGuard

lemma extract_account_id_some (s : String) :
    extract_account_id (some s) =
      ((extractL s.data).1.map (fun l => String.mk l), (extractL s.data).2) := rfl

/-- C1 counterexample: the code flags the key upi:bob as soon as it occurs
in two identified transactions, even though its distinct other-party-label
set (both labels learnerC) has cardinality one, contradicting the claimed
iff. -/
theorem c1_counterexample :
    is_dup ["upi:bob", "upi:bob"] "upi:bob" = true ∧
    claimFlag [("upi:bob", "learnerC"), ("upi:bob", "learnerC")] "upi:bob" = false := by
  decide

/-- C1 (amended): in the grouping stage a raw key is flagged iff it occurs
in more than one identified transaction; no other-party labels are
tracked.  With occurrence counts upi:alice two and upi:bob one, exactly
upi:alice is flagged. -/
theorem c1_theorem :
    (∀ (rows : List (Option String)) (k : String),
      is_dup (identifiedKeys rows) k = true ↔
        1 < rows.countP (fun d => decide ((extract_account_id d).1 = some k))) ∧
    dup_accounts ["upi:alice", "upi:alice", "upi:bob"] = ["upi:alice"] := by
  refine ⟨?_, by decide⟩
  intro rows k
  unfold is_dup
  rw [keyCount_identified]
  exact decide_eq_true_iff

/-- C2 counterexample: on the description of the claim the extractor does
not return the key upi:alice, because ALICE is an all-uppercase run of two
to six letters and the bank-code filter rejects it. -/
theorem c2_counterexample :
    (extractS "UPI/REF123/ALICE@OKHDFCBANK/...").1 ≠ some "upi:alice" := by
  decide

/-- C2 (amended): on the UPI rail the extractor returns the key of the
first handle whose username has length at most 30 and is not a run of two
to six uppercase letters; both descriptions of the claim yield no key
because ALICE is rejected by the uppercase bank-code shape, while their
lowercase-username variants both yield upi:alice. -/
theorem c2_theorem :
    (∀ s : String, hasWord kwUPI (pyStrip s.data) = true →
      (extractS s).2 = "UPI" ∧
      ((extractS s).1 = none ∨
        ∃ u : List Char, (extractS s).1 = some (String.mk (upiTag ++ u)))) ∧
    extractS "UPI/REF123/ALICE@OKHDFCBANK/..." = (none, "UPI") ∧
    extractS "UPI/REF456/ALICE@/..." = (none, "UPI") ∧
    extractS "UPI/REF123/alice@OKHDFCBANK/..." = (some "upi:alice", "UPI") ∧
    extractS "UPI/REF456/alice@/..." = (some "upi:alice", "UPI") := by
  refine ⟨?_, by decide, by decide, by decide, by decide⟩
  intro s h
  unfold extractS
  rw [extract_account_id_some, extractL_upi s.data h]
  refine ⟨rfl, ?_⟩
  unfold upiKey
  cases hp : upiPick (scanHandles (pyStrip s.data).length (pyStrip s.data)) with
  | none => exact Or.inl rfl
  | some u => exact Or.inr ⟨u, rfl⟩

/-- C2 witness. -/
theorem c2_witness :
    (extractS "UPI/REF123/alice@OKHDFCBANK/...").2 = "UPI" ∧
    ((extractS "UPI/REF123/alice@OKHDFCBANK/...").1 = none ∨
      ∃ u : List Char,
        (extractS "UPI/REF123/alice@OKHDFCBANK/...").1 = some (String.mk (upiTag ++ u))) :=
  c2_theorem.1 "UPI/REF123/alice@OKHDFCBANK/..." (by decide)

end TxnGuard

namespace TxnGuard

/-- C1 witness. -/
theorem c1_witness :
    is_dup (identifiedKeys [some "UPI a1 alice@ok1", some "UPI a2 alice@ok2"]) "upi:alice" = true :=
  (c1_theorem.1 [some "UPI a1 alice@ok1", some "UPI a2 alice@ok2"] "upi:alice").mpr (by decide)

/-- C3 counterexample: on a description containing both IMPS and INFT the
code resolves the rail to NEFT (INFT is part of the NEFT/RTGS alternation,
checked before IMPS), while the claimed priority resolves it to IMPS; the
claimed INFT rail value is never produced. -/
theorem c3_counterexample :
    (extractS "IMPS INFT PAYMENT").2 = "NEFT" ∧
    railPriorityClaim "IMPS INFT PAYMENT" = "IMPS" ∧
    (extractS "IMPS INFT PAYMENT").2 ≠ railPriorityClaim "IMPS INFT PAYMENT" := by
  decide

/-- C3 (amended): rail detection scans the stripped description for
whole-word keywords case-insensitively and resolves deterministically in
the order UPI first, then the NEFT/RTGS/INFT group (labelled RTGS when
RTGS is present, otherwise NEFT, so INFT resolves to NEFT and outranks
IMPS), then IMPS/MMT, and OTHER when no keyword is present; ambiguity is
never an error. -/
theorem c3_theorem :
    (∀ s : String, hasWord kwUPI (pyStrip s.data) = true → (extractS s).2 = "UPI") ∧
    (∀ s : String, hasWord kwUPI (pyStrip s.data) = false →
      hasWord kwRTGS (pyStrip s.data) = true → (extractS s).2 = "RTGS") ∧
    (∀ s : String, hasWord kwUPI (pyStrip s.data) = false →
      hasWord kwRTGS (pyStrip s.data) = false →
      (hasWord kwNEFT (pyStrip s.data) = true ∨ hasWord kwINFT (pyStrip s.data) = true) →
      (extractS s).2 = "NEFT") ∧
    (∀ s : String, hasWord kwUPI (pyStrip s.data) = false →
      railGroupNEFT (pyStrip s.data) = false →
      (hasWord kwIMPS (pyStrip s.data) || hasWord kwMMT (pyStrip s.data)) = true →
      (extractS s).2 = "IMPS") ∧
    (∀ s : String, (pyStrip s.data).isEmpty = false →
      hasWord kwUPI (pyStrip s.data) = false →
      railGroupNEFT (pyStrip s.data) = false →
      (hasWord kwIMPS (pyStrip s.data) || hasWord kwMMT (pyStrip s.data)) = false →
      (extractS s).2 = "OTHER") := by
  refine ⟨?_, ?_, ?_, ?_, ?_⟩
  · intro s h
    unfold extractS
    rw [extract_account_id_some, extractL_upi s.data h]
  · intro s h0 h1
    have hg : railGroupNEFT (pyStrip s.data) = true := by
      simp [railGroupNEFT, h1]
    unfold extractS
    rw [extract_account_id_some, extractL_neft s.data h0 hg]
    simp [neftLabel, h1]
  · intro s h0 h1 h2
    have hg : railGroupNEFT (pyStrip s.data) = true := by
      rcases h2 with h | h <;> simp [railGroupNEFT, h]
    unfold extractS
    rw [extract_account_id_some, extractL_neft s.data h0 hg]
    simp [neftLabel, h1]
  · intro s h0 h1 h2
    unfold extractS
    rw [extract_account_id_some, extractL_imps s.data h0 h1 h2]
  · intro s hne h0 h1 h2
    unfold extractS
    rw [extract_account_id_some, extractL_other s.data hne h0 h1 h2]

/-- C3 witness. -/
theorem c3_witness : (extractS "UPI RTGS TRANSFER").2 = "UPI" :=
  c3_theorem.1 "UPI RTGS TRANSFER" (by decide)

/-- C4 counterexample: a NEFT description with a 9-digit account number
separated from its IFSC-shaped code by a space yields no key in the code
(the regex only accepts a dash), while the claimed dash-or-space pattern
extracts acct:123456789. -/
theorem c4_counterexample :
    (extractS "NEFT CR 123456789 HDFC0001234").1 = none ∧
    neftKeyClaim "NEFT CR 123456789 HDFC0001234" = some "acct:123456789" := by
  decide

/-- C4 (amended): on the NEFT/RTGS rail the digit run must be immediately
followed by a dash (not a space) and an IFSC-shaped code, with the
standalone 11-to-18-digit fallback; the example of the claim holds, the
space-separated variant yields no key, and every produced key is acct:
followed by 9 to 18 digits. -/
theorem c4_theorem :
    extractS "NEFT-CR-12552100113212-FDRL0000037-JOHN DOE" =
      (some "acct:12552100113212", "NEFT") ∧
    extractS "NEFT CR 123456789 HDFC0001234" = (none, "NEFT") ∧
    (∀ s : String, hasWord kwUPI (pyStrip s.data) = false →
      railGroupNEFT (pyStrip s.data) = true →
      (extractS s).1 = none ∨
        ∃ dg : List Char, (extractS s).1 = some (String.mk (acctTag ++ dg)) ∧
          9 ≤ dg.length ∧ dg.length ≤ 18 ∧ dg.all Char.isDigit = true) := by
  refine ⟨by decide, by decide, ?_⟩
  intro s h0 h1
  unfold extractS
  rw [extract_account_id_some, extractL_neft s.data h0 h1]
  unfold neftScan
  cases hp : scanAcctPrimary (pyStrip s.data) with
  | some dg =>
    obtain ⟨ha, hb, hc⟩ := scanAcctPrimary_some _ _ hp
    exact Or.inr ⟨dg, by simp, ha, hb, hc⟩
  | none =>
    cases hf : scanAcctFallbackFrom true (pyStrip s.data) with
    | none => exact Or.inl (by simp)
    | some dg =>
      obtain ⟨ha, hb, hc⟩ := scanAcctFallbackFrom_some _ _ _ hf
      exact Or.inr ⟨dg, by simp, by omega, hb, hc⟩

/-- C4 witness. -/
theorem c4_witness :
    (extractS "NEFT 12345678901").1 = none ∨
      ∃ dg : List Char, (extractS "NEFT 12345678901").1 = some (String.mk (acctTag ++ dg)) ∧
        9 ≤ dg.length ∧ dg.length ≤ 18 ∧ dg.all Char.isDigit = true :=
  c4_theorem.2.2 "NEFT 12345678901" (by decide) (by decide)

end TxnGuard

namespace TxnGuard

/-- C5: on the IMPS/MMT rail the description is split on the delimiter
into ordered trimmed segments and the second-to-last segment is taken as
the sender or receiver name, uppercased under the imps_name: tag, exactly
when it is longer than two characters and is not a bank name, not a rail
keyword and not numeric; otherwise no identifier is returned. -/
theorem c5_theorem : ∀ s : String,
    hasWord kwUPI (pyStrip s.data) = false →
    railGroupNEFT (pyStrip s.data) = false →
    (hasWord kwIMPS (pyStrip s.data) || hasWord kwMMT (pyStrip s.data)) = true →
    extractS s = (impsNameClaim s, "IMPS") := by
  intro s h0 h1 h2
  unfold extractS
  rw [extract_account_id_some, extractL_imps s.data h0 h1 h2]
  unfold impsKey impsNameClaim
  rw [secondToLast_reverse]
  cases hrev : ((splitSlash (pyStrip s.data)).map pyStrip).reverse with
  | nil => rfl
  | cons x xs =>
    cases xs with
    | nil => rfl
    | cons y t =>
      simp only [List.tail_cons, List.head?_cons]
      rw [impsCandidateOk_eq_goodSegment]
      cases hg : goodSegment (pyStrip y) <;> simp

/-- C5 witness. -/
theorem c5_witness :
    extractS "IMPS/123456/JOHN DOE/REF" = (impsNameClaim "IMPS/123456/JOHN DOE/REF", "IMPS") :=
  c5_theorem "IMPS/123456/JOHN DOE/REF" (by decide) (by decide) (by decide)

/-- C6 counterexample: a description with no rail keyword yields the rail
value OTHER, not the claimed UNKNOWN. -/
theorem c6_counterexample :
    extractS "ATM WDL CHG 500.00" = (none, "OTHER") ∧ ("OTHER" : String) ≠ "UNKNOWN" := by
  decide

/-- C6 (amended): a nonblank description containing no rail keyword yields
no key under the rail value OTHER; the UNKNOWN rail value is reserved for
missing or blank descriptions. -/
theorem c6_theorem :
    (∀ s : String, (pyStrip s.data).isEmpty = false →
      hasWord kwUPI (pyStrip s.data) = false →
      railGroupNEFT (pyStrip s.data) = false →
      (hasWord kwIMPS (pyStrip s.data) || hasWord kwMMT (pyStrip s.data)) = false →
      extractS s = (none, "OTHER")) ∧
    extractS "ATM WDL CHG 500.00" = (none, "OTHER") := by
  refine ⟨?_, by decide⟩
  intro s hne h0 h1 h2
  unfold extractS
  rw [extract_account_id_some, extractL_other s.data hne h0 h1 h2]
  rfl

/-- C6 witness. -/
theorem c6_witness : extractS "ATM WDL CHG 500.00" = (none, "OTHER") :=
  c6_theorem.1 "ATM WDL CHG 500.00" (by decide) (by decide) (by decide) (by decide)

/-- C7: the extractor is a total function and a missing, non-string or
whitespace-only description degrades to no key under the rail value
UNKNOWN rather than an error or a wrong guess. -/
theorem c7_theorem : ∀ d : Option String,
    (d = none ∨ ∃ s : String, d = some s ∧ (pyStrip s.data).isEmpty = true) →
    extract_account_id d = (none, "UNKNOWN") := by
  intro d h
  rcases h with rfl | ⟨s, rfl, hs⟩
  · rfl
  · rw [extract_account_id_some, extractL_blank s.data hs]
    rfl

/-- C7 witness. -/
theorem c7_witness : extract_account_id (some "   ") = (none, "UNKNOWN") :=
  c7_theorem (some "   ") (Or.inr ⟨"   ", rfl, by decide⟩)

end TxnGuard

namespace TxnGuard

lemma extractL_key_shape (d0 : List Char) (l : List Char)
    (h : (extractL d0).1 = some l) :
    (∃ u, l = upiTag ++ u) ∨ (∃ u, l = acctTag ++ u) ∨ (∃ u, l = impsTag ++ u) := by
  unfold extractL at h
  split at h
  · exact absurd h (by simp)
  · split at h
    · simp only [upiKey] at h
      obtain ⟨u, _, hu⟩ := Option.map_eq_some'.mp h
      exact Or.inl ⟨u, hu.symm⟩
    · split at h
      · obtain ⟨u, _, hu⟩ := Option.map_eq_some'.mp h
        exact Or.inr (Or.inl ⟨u, hu.symm⟩)
      · split at h
        · simp only [impsKey] at h
          split at h
          · split at h
            · exact Or.inr (Or.inr ⟨_, (Option.some.inj h).symm⟩)
            · exact absurd h (by simp)
          · exact absurd h (by simp)
        · exact absurd h (by simp)

/-- C8: every key produced by the extractor is namespaced by exactly one
of the tags upi:, acct: and imps_name:, so keys produced by different
extraction methods never collide. -/
theorem c8_theorem : ∀ (d : Option String) (k : String),
    (extract_account_id d).1 = some k →
    ((∃ u, k.data = upiTag ++ u) ∧ ¬(∃ u, k.data = acctTag ++ u) ∧
      ¬(∃ u, k.data = impsTag ++ u)) ∨
    ((∃ u, k.data = acctTag ++ u) ∧ ¬(∃ u, k.data = upiTag ++ u) ∧
      ¬(∃ u, k.data = impsTag ++ u)) ∨
    ((∃ u, k.data = impsTag ++ u) ∧ ¬(∃ u, k.data = upiTag ++ u) ∧
      ¬(∃ u, k.data = acctTag ++ u)) := by
  intro d k h
  cases d with
  | none => exact absurd h (by simp [extract_account_id])
  | some s =>
    rw [extract_account_id_some] at h
    obtain ⟨l, hl, hk⟩ := Option.map_eq_some'.mp h
    have hdata : k.data = l := by rw [← hk]
    rcases extractL_key_shape _ _ hl with ⟨u, hu⟩ | ⟨u, hu⟩ | ⟨u, hu⟩ <;> rw [hu] at hdata
    · refine Or.inl ⟨⟨u, hdata⟩, ?_, ?_⟩
      · rintro ⟨v, hv⟩
        exact tag_ne_upi_acct u v (hdata.symm.trans hv)
      · rintro ⟨v, hv⟩
        exact tag_ne_upi_imps u v (hdata.symm.trans hv)
    · refine Or.inr (Or.inl ⟨⟨u, hdata⟩, ?_, ?_⟩)
      · rintro ⟨v, hv⟩
        exact tag_ne_upi_acct v u (hv.symm.trans hdata)
      · rintro ⟨v, hv⟩
        exact tag_ne_acct_imps u v (hdata.symm.trans hv)
    · refine Or.inr (Or.inr ⟨⟨u, hdata⟩, ?_, ?_⟩)
      · rintro ⟨v, hv⟩
        exact tag_ne_upi_imps v u (hv.symm.trans hdata)
      · rintro ⟨v, hv⟩
        exact tag_ne_acct_imps v u (hv.symm.trans hdata)

/-- C8 witness. -/
theorem c8_witness :
    ((∃ u, ("upi:alice" : String).data = upiTag ++ u) ∧
      ¬(∃ u, ("upi:alice" : String).data = acctTag ++ u) ∧
      ¬(∃ u, ("upi:alice" : String).data = impsTag ++ u)) ∨
    ((∃ u, ("upi:alice" : String).data = acctTag ++ u) ∧
      ¬(∃ u, ("upi:alice" : String).data = upiTag ++ u) ∧
      ¬(∃ u, ("upi:alice" : String).data = impsTag ++ u)) ∨
    ((∃ u, ("upi:alice" : String).data = impsTag ++ u) ∧
      ¬(∃ u, ("upi:alice" : String).data = upiTag ++ u) ∧
      ¬(∃ u, ("upi:alice" : String).data = acctTag ++ u)) :=
  c8_theorem (some "UPI alice@ok") "upi:alice" (by decide)

/-- C9: normalization is idempotent.  The Normalizer is modelled from the
spec (it is not present in src/app.py): upper-case, collapse hyphen,
underscore and pipe to the canonical delimiter, collapse repeated
delimiters. -/
theorem c9_theorem (s : String) : normalize (normalize s) = normalize s := by
  unfold normalize
  congr 1
  show collapseSlash ((collapseSlash (s.data.map normChar)).map normChar) =
    collapseSlash (s.data.map normChar)
  rw [map_normChar_collapse]
  exact collapseSlash_of_noDouble _ (noDoubleSlash_collapseSlash _)

lemma lowerL_map_toLower (l : List Char) : lowerL (l.map Char.toLower) = l.map Char.toLower := by
  unfold lowerL
  rw [List.map_map]
  exact List.map_congr_left (fun a _ => toLower_toLower a)

lemma all_handle_map_toLower (l : List Char) (h : l.all isHandleChar = true) :
    (l.map Char.toLower).all isHandleChar = true := by
  rw [List.all_map]
  rw [List.all_eq_true] at h ⊢
  intro x hx
  exact isHandleChar_toLower x (h x hx)

/-- C10: every username of a returned UPI key is entirely lowercased, has
length between 3 and 30, and consists only of word characters, dots and
hyphens. -/
theorem c10_theorem : ∀ (d : Option String) (u : List Char),
    (extract_account_id d).1 = some (String.mk (upiTag ++ u)) →
    lowerL u = u ∧ 3 ≤ u.length ∧ u.length ≤ 30 ∧ u.all isHandleChar = true := by
  intro d u h
  cases d with
  | none => exact absurd h (by simp [extract_account_id])
  | some s =>
    rw [extract_account_id_some] at h
    obtain ⟨l, hl, hk⟩ := Option.map_eq_some'.mp h
    have hlu : l = upiTag ++ u := by injection hk
    subst hlu
    unfold extractL at hl
    split at hl
    · exact absurd hl (by simp)
    · split at hl
      · simp only [upiKey] at hl
        obtain ⟨u0, hu0, heq⟩ := Option.map_eq_some'.mp hl
        have huu : u0 = u := List.append_cancel_left heq
        subst huu
        obtain ⟨pre, suf, hmem, h30, hmap⟩ := upiPick_some _ _ hu0
        obtain ⟨h3, hall⟩ := scanHandles_mem _ _ _ _ hmem
        subst hmap
        refine ⟨lowerL_map_toLower pre, ?_, ?_, all_handle_map_toLower pre hall⟩
        · rw [List.length_map]; exact h3
        · rw [List.length_map]; exact h30
      · split at hl
        · obtain ⟨dg, _, heq⟩ := Option.map_eq_some'.mp hl
          exact absurd heq.symm (tag_ne_upi_acct u dg)
        · split at hl
          · simp only [impsKey] at hl
            split at hl
            · split at hl
              · have h2 := Option.some.inj hl
                exact absurd h2.symm (tag_ne_upi_imps u _)
              · exact absurd hl (by simp)
            · exact absurd hl (by simp)
          · exact absurd hl (by simp)

end TxnGuard

namespace TxnGuard

/-- C10 witness. -/
theorem c10_witness :
    lowerL ['a', 'l', 'i', 'c', 'e'] = ['a', 'l', 'i', 'c', 'e'] ∧
    3 ≤ (['a', 'l', 'i', 'c', 'e'] : List Char).length ∧
    (['a', 'l', 'i', 'c', 'e'] : List Char).length ≤ 30 ∧
    (['a', 'l', 'i', 'c', 'e'] : List Char).all isHandleChar = true :=
  c10_theorem (some "UPI alice@ok") ['a', 'l', 'i', 'c', 'e'] (by decide)

end TxnGuard
